import Mathlib

/-!
Shallow embedding of `src/event-emitter.js` (pjfreeze/event-emitter).

JS function objects are modelled by `Handler`: a caller-supplied function is
`Handler.plain id` (`id` models the function object's identity), and the
wrapper closure created by `once` is `Handler.wrapper wid name original
context`, where `wid` models the identity of the freshly allocated closure
and the other fields are the values the closure captures.  Invocation
receivers (JS `this`) are modelled by `Ctx`, with `null` and `undefined`
distinguished so that `undefined`-triggered parameter defaults and loose
equality (`==`) can be rendered faithfully.  Handler bodies are observable
through a log of `Invocation` records; emission arguments are modelled as
`List Nat` and forwarded verbatim.
-/

inductive Ctx where
  | null
  | undef
  | obj (id : Nat)
deriving DecidableEq

/-- JS loose equality `==` restricted to the values a stored or supplied
context can be: `null == undefined` holds, and objects compare by identity. -/
def Ctx.looseEq : Ctx → Ctx → Bool
  | .obj a, .obj b => a == b
  | .obj _, _ => false
  | _, .obj _ => false
  | _, _ => true

/-- JS default-parameter semantics for `context = null`: the default applies
exactly when the supplied argument is `undefined`. -/
def defaultNull (c : Ctx) : Ctx :=
  if c = .undef then .null else c

inductive Handler where
  | plain (id : Nat)
  | wrapper (wid : Nat) (name : String) (original : Handler) (context : Ctx)
deriving DecidableEq

def Handler.isPlain : Handler → Bool
  | .plain _ => true
  | .wrapper .. => false

/-- Reading `handler[ORIGINAL_SYMBOL]`: the tag is set (to the wrapped
handler) only on the wrapper created by `once`; on any other function the
read yields `undefined`, modelled as `none`. -/
def Handler.original : Handler → Option Handler
  | .plain _ => none
  | .wrapper _ _ orig _ => some orig

/-- JS `==` between a stored handler slot (or its `ORIGINAL_SYMBOL` tag) and
the `handler` argument of `off`; each side is either a function value or
`undefined` (`none`).  Functions compare by identity; a function is never
loosely equal to `undefined`. -/
def looseEqHandler : Option Handler → Option Handler → Bool
  | none, none => true
  | some a, some b => a == b
  | _, _ => false

/-- The record pushed by `on`: `{ context, handler }`. -/
structure Subscription where
  context : Ctx
  handler : Handler
deriving DecidableEq

/-- The de-registration closure returned by `on`/`once`:
`this.off.bind(this, name, handler, context)`. -/
structure Token where
  name : String
  handler : Handler
  context : Ctx
deriving DecidableEq

/-- The emitter: its hidden `SUBSCRIPTIONS_SYMBOL` object, a key/value map
from event name to the array of subscriptions. -/
structure EventEmitter where
  subscriptions : List (String × List Subscription)
deriving DecidableEq

def EventEmitter.empty : EventEmitter := ⟨[]⟩

/-- First-entry lookup in the key/value pairs of the registry object. -/
def lookupKey (name : String) : List (String × List Subscription) → List Subscription
  | [] => []
  | p :: rest => if p.1 == name then p.2 else lookupKey name rest

def containsKey (name : String) : List (String × List Subscription) → Bool
  | [] => false
  | p :: rest => p.1 == name || containsKey name rest

/-- Replace the value stored under a present key. -/
def setKey (name : String) (l : List Subscription) :
    List (String × List Subscription) → List (String × List Subscription)
  | [] => []
  | p :: rest => if p.1 == name then (name, l) :: setKey name l rest else p :: setKey name l rest

/-- Remove a key/value pair outright. -/
def removeKey (name : String) : List (String × List Subscription) → List (String × List Subscription)
  | [] => []
  | p :: rest => if p.1 == name then removeKey name rest else p :: removeKey name rest

/-- `this[SUBSCRIPTIONS_SYMBOL][name] || []`. -/
def EventEmitter.getSubs (e : EventEmitter) (name : String) : List Subscription :=
  lookupKey name e.subscriptions

def EventEmitter.hasKey (e : EventEmitter) (name : String) : Bool :=
  containsKey name e.subscriptions

/-- `this[SUBSCRIPTIONS_SYMBOL][name] = l`: in-place update of a present key,
otherwise addition of a new key. -/
def EventEmitter.setSubs (e : EventEmitter) (name : String) (l : List Subscription) : EventEmitter :=
  if e.hasKey name then ⟨setKey name l e.subscriptions⟩ else ⟨e.subscriptions ++ [(name, l)]⟩

/-- `delete this[SUBSCRIPTIONS_SYMBOL][name]`. -/
def EventEmitter.deleteKey (e : EventEmitter) (name : String) : EventEmitter :=
  ⟨removeKey name e.subscriptions⟩

/-- `on(name, handler, context = null)`: append `{ context, handler }` to the
(possibly fresh) array for `name` and return the bound `off` token. -/
def EventEmitter.on (e : EventEmitter) (name : String) (handler : Handler) (context : Ctx) :
    EventEmitter × Token :=
  let context := defaultNull context
  let e' := e.setSubs name (e.getSubs name ++ [⟨context, handler⟩])
  (e', ⟨name, handler, context⟩)

/-- The `matchesSubscription` predicate from `off`; `handler` is `none` when
`off` is called without a handler argument (JS `undefined`). -/
def EventEmitter.matchesSubscription (handler : Option Handler) (context : Ctx) (s : Subscription) : Bool :=
  let matchesContext := Ctx.looseEq s.context context
  let matchesHandler :=
    looseEqHandler (some s.handler) handler || looseEqHandler s.handler.original handler
  matchesHandler && matchesContext

/-- `off(name, handler, context = null)`.  The JS body finds the first
matching subscription record and splices exactly that record out
(`indexOf(match)` is the index `find` stopped at, because each `on` pushes a
distinct record object); if the array is empty afterwards — or was already
empty/absent — the key is deleted. -/
def EventEmitter.off (e : EventEmitter) (name : String) (handler : Option Handler) (context : Ctx) :
    EventEmitter :=
  let context := defaultNull context
  let subs := e.getSubs name
  let subs' :=
    match subs.findIdx? (EventEmitter.matchesSubscription handler context) with
    | some i => subs.eraseIdx i
    | none => subs
  if subs'.isEmpty then e.deleteKey name else e.setSubs name subs'

/-- Invoking an unsubscribe token: exactly `off` with the captured values. -/
def EventEmitter.runToken (e : EventEmitter) (t : Token) : EventEmitter :=
  e.off t.name (some t.handler) t.context

/-- `once(name, handler, context)` (note: no default on `context`): register
a fresh wrapper closure carrying `ORIGINAL_SYMBOL = handler`; `wid` models
the identity of that fresh closure. -/
def EventEmitter.once (e : EventEmitter) (name : String) (handler : Handler) (context : Ctx) (wid : Nat) :
    EventEmitter × Token :=
  e.on name (.wrapper wid name handler context) context

/-- One observable handler invocation: the plain function that ran, the
receiver it was bound to, and the arguments it received. -/
structure Invocation where
  receiver : Ctx
  fn : Nat
  args : List Nat
deriving DecidableEq

/-- `subscription.handler.call(receiver, ...args)`: a plain function logs one
invocation; the body of the `once` wrapper first runs `off()` — the token
bound at registration time, whose context went through the `context = null`
default of `on` — and then `handler.call(context, ...args)` with the raw
captured context. -/
def invokeHandler (e : EventEmitter) (log : List Invocation) (h : Handler)
    (receiver : Ctx) (args : List Nat) : EventEmitter × List Invocation :=
  match h with
  | .plain id => (e, log ++ [⟨receiver, id, args⟩])
  | .wrapper wid name orig context =>
      let e' := e.runToken ⟨name, .wrapper wid name orig context, defaultNull context⟩
      invokeHandler e' log orig context args

/-- `Array.prototype.forEach` over the live subscription array: the range of
indices is fixed up front (`fuel` starts at the array's length) and index `k`
is visited iff it is still in bounds when reached.  During dispatch the
registry entry for `name` is only ever spliced in place or deleted (handler
bodies mutate the emitter only through `off`, and a key is deleted only once
its array is empty), so reading the current list from the registry at each
step coincides with iterating the array object `emit` captured. -/
def emitLoop (name : String) (args : List Nat) :
    Nat → Nat → EventEmitter × List Invocation → EventEmitter × List Invocation
  | _, 0, st => st
  | k, fuel + 1, st =>
      let subs := st.1.getSubs name
      if hk : k < subs.length then
        emitLoop name args (k + 1) fuel
          (invokeHandler st.1 st.2 (subs.get ⟨k, hk⟩).handler (subs.get ⟨k, hk⟩).context args)
      else
        emitLoop name args (k + 1) fuel st

/-- `emit(name, ...args)`; the second component is the sequence of handler
invocations this call performed, in order. -/
def EventEmitter.emit (e : EventEmitter) (name : String) (args : List Nat) :
    EventEmitter × List Invocation :=
  emitLoop name args 0 (e.getSubs name).length (e, [])

/-- The per-call invocation logs of a sequence of `emit` calls for `name`. -/
def emitLogs (e : EventEmitter) (name : String) : List (List Nat) → List (List Invocation)
  | [] => []
  | args :: rest => (e.emit name args).2 :: emitLogs (e.emit name args).1 name rest

def keysNodup : List (String × List Subscription) → Bool
  | [] => true
  | p :: rest => !containsKey p.1 rest && keysNodup rest

/-- Structural well-formedness of the registry object: at most one entry per
key, and no key mapped to an empty array.  Every reachable emitter satisfies
it (see `Reachable.wf`). -/
def EventEmitter.wf (e : EventEmitter) : Bool :=
  keysNodup e.subscriptions && e.subscriptions.all (fun p => !p.2.isEmpty)

/-- Emitter states produced by the constructor followed by any sequence of
the four public operations (invoking a returned token is an `off` call). -/
inductive Reachable : EventEmitter → Prop where
  | empty : Reachable .empty
  | step_on : ∀ {e} (name : String) (handler : Handler) (context : Ctx),
      Reachable e → Reachable (e.on name handler context).1
  | step_once : ∀ {e} (name : String) (handler : Handler) (context : Ctx) (wid : Nat),
      Reachable e → Reachable (e.once name handler context wid).1
  | step_off : ∀ {e} (name : String) (handler : Option Handler) (context : Ctx),
      Reachable e → Reachable (e.off name handler context)
  | step_emit : ∀ {e} (name : String) (args : List Nat),
      Reachable e → Reachable (e.emit name args).1

/-- The invocation log a list of plain-handler subscriptions produces when
dispatched in order (used under all-plain hypotheses; wrapper subscriptions
contribute nothing here). -/
def plainLog (args : List Nat) : List Subscription → List Invocation
  | [] => []
  | ⟨c, .plain id⟩ :: rest => ⟨c, id, args⟩ :: plainLog args rest
  | ⟨_, .wrapper ..⟩ :: rest => plainLog args rest

/-- The plain-function identities a handler value can cause to run when
invoked: itself for a plain function, the chain of wrapped originals for a
wrapper. -/
def Handler.mentions (f : Nat) : Handler → Bool
  | .plain id => id == f
  | .wrapper _ _ orig _ => orig.mentions f


/-! ### Loose equality and defaults -/

theorem Ctx.looseEq_refl (c : Ctx) : c.looseEq c = true := by
  cases c <;> simp [Ctx.looseEq]

theorem defaultNull_idem (c : Ctx) : defaultNull (defaultNull c) = defaultNull c := by
  cases c <;> simp [defaultNull]

/-! ### Registry key plumbing lemmas -/

theorem lookupKey_of_not_contains {n : String} {s : List (String × List Subscription)}
    (h : containsKey n s = false) : lookupKey n s = [] := by
  induction s with
  | nil => rfl
  | cons p rest ih =>
      simp only [containsKey, Bool.or_eq_false_iff] at h
      simp [lookupKey, h.1, ih h.2]

theorem setKey_of_not_contains {n : String} {l : List Subscription}
    {s : List (String × List Subscription)} (h : containsKey n s = false) :
    setKey n l s = s := by
  induction s with
  | nil => rfl
  | cons p rest ih =>
      simp only [containsKey, Bool.or_eq_false_iff] at h
      simp [setKey, h.1, ih h.2]

theorem removeKey_of_not_contains {n : String} {s : List (String × List Subscription)}
    (h : containsKey n s = false) : removeKey n s = s := by
  induction s with
  | nil => rfl
  | cons p rest ih =>
      simp only [containsKey, Bool.or_eq_false_iff] at h
      simp [removeKey, h.1, ih h.2]

theorem lookupKey_setKey_self {n : String} {l : List Subscription}
    {s : List (String × List Subscription)} (h : containsKey n s = true) :
    lookupKey n (setKey n l s) = l := by
  induction s with
  | nil => simp [containsKey] at h
  | cons p rest ih =>
      by_cases hp : (p.1 == n) = true
      · simp [setKey, lookupKey, hp]
      · have hp' : (p.1 == n) = false := by simpa using hp
        have hrest : containsKey n rest = true := by
          simpa [containsKey, hp'] using h
        simp [setKey, lookupKey, hp', ih hrest]

theorem lookupKey_setKey_ne {n m : String} (hmn : m ≠ n) {l : List Subscription}
    {s : List (String × List Subscription)} :
    lookupKey m (setKey n l s) = lookupKey m s := by
  induction s with
  | nil => rfl
  | cons p rest ih =>
      by_cases hp : (p.1 == n) = true
      · have hp1 : p.1 = n := by simpa using hp
        have hnm : ¬ n = m := fun h => hmn h.symm
        simp [setKey, lookupKey, hp, hp1, hnm, ih]
      · have hp' : (p.1 == n) = false := by simpa using hp
        simp [setKey, lookupKey, hp', ih]

theorem containsKey_setKey {n m : String} {l : List Subscription}
    {s : List (String × List Subscription)} :
    containsKey m (setKey n l s) = containsKey m s := by
  induction s with
  | nil => rfl
  | cons p rest ih =>
      by_cases hp : (p.1 == n) = true
      · have hp1 : p.1 = n := by simpa using hp
        simp [setKey, containsKey, hp, hp1, ih]
      · have hp' : (p.1 == n) = false := by simpa using hp
        simp [setKey, containsKey, hp', ih]

theorem setKey_setKey {n : String} {l l' : List Subscription}
    {s : List (String × List Subscription)} :
    setKey n l' (setKey n l s) = setKey n l' s := by
  induction s with
  | nil => rfl
  | cons p rest ih =>
      by_cases hp : (p.1 == n) = true
      · simp [setKey, hp, ih]
      · have hp' : (p.1 == n) = false := by simpa using hp
        simp [setKey, hp', ih]

theorem removeKey_setKey {n : String} {l : List Subscription}
    {s : List (String × List Subscription)} :
    removeKey n (setKey n l s) = removeKey n s := by
  induction s with
  | nil => rfl
  | cons p rest ih =>
      by_cases hp : (p.1 == n) = true
      · simp [setKey, removeKey, hp, ih]
      · have hp' : (p.1 == n) = false := by simpa using hp
        simp [setKey, removeKey, hp', ih]

theorem setKey_lookupKey_self {n : String} {s : List (String × List Subscription)}
    (hnd : keysNodup s = true) : setKey n (lookupKey n s) s = s := by
  induction s with
  | nil => rfl
  | cons p rest ih =>
      simp only [keysNodup, Bool.and_eq_true, Bool.not_eq_true'] at hnd
      by_cases hp : (p.1 == n) = true
      · have hp1 : p.1 = n := by simpa using hp
        have hrest : containsKey n rest = false := hp1 ▸ hnd.1
        simp only [lookupKey, setKey, hp, if_true, setKey_of_not_contains hrest]
        rw [← hp1]
      · have hp' : (p.1 == n) = false := by simpa using hp
        simp [setKey, lookupKey, hp', ih hnd.2]

theorem lookupKey_removeKey_self {n : String} {s : List (String × List Subscription)} :
    lookupKey n (removeKey n s) = [] := by
  induction s with
  | nil => rfl
  | cons p rest ih =>
      by_cases hp : (p.1 == n) = true
      · simp [removeKey, hp, ih]
      · have hp' : (p.1 == n) = false := by simpa using hp
        simp [removeKey, lookupKey, hp', ih]

theorem containsKey_removeKey_self {n : String} {s : List (String × List Subscription)} :
    containsKey n (removeKey n s) = false := by
  induction s with
  | nil => rfl
  | cons p rest ih =>
      by_cases hp : (p.1 == n) = true
      · simp [removeKey, hp, ih]
      · have hp' : (p.1 == n) = false := by simpa using hp
        simp [removeKey, containsKey, hp', ih]

theorem lookupKey_removeKey_ne {n m : String} (hmn : m ≠ n)
    {s : List (String × List Subscription)} :
    lookupKey m (removeKey n s) = lookupKey m s := by
  induction s with
  | nil => rfl
  | cons p rest ih =>
      by_cases hp : (p.1 == n) = true
      · have hp1 : p.1 = n := by simpa using hp
        have hnm : ¬ n = m := fun h => hmn h.symm
        simp [removeKey, lookupKey, hp, hp1, hnm, ih]
      · have hp' : (p.1 == n) = false := by simpa using hp
        simp [removeKey, lookupKey, hp', ih]

theorem containsKey_mono_removeKey {n m : String} {s : List (String × List Subscription)}
    (h : containsKey m (removeKey n s) = true) : containsKey m s = true := by
  induction s with
  | nil => simpa [removeKey] using h
  | cons p rest ih =>
      by_cases hp : (p.1 == n) = true
      · simp only [removeKey, hp, if_true] at h
        simp [containsKey, ih h]
      · have hp' : (p.1 == n) = false := by simpa using hp
        simp only [removeKey, hp', Bool.false_eq_true, if_false, containsKey,
          Bool.or_eq_true] at h ⊢
        rcases h with h | h
        · exact Or.inl h
        · exact Or.inr (ih h)

theorem lookupKey_append_single_ne {n m : String} (hmn : m ≠ n) {l : List Subscription}
    {s : List (String × List Subscription)} :
    lookupKey m (s ++ [(n, l)]) = lookupKey m s := by
  induction s with
  | nil =>
      have hnm : ¬ n = m := fun h => hmn h.symm
      simp [lookupKey, hnm]
  | cons p rest ih =>
      by_cases hp : (p.1 == m) = true
      · simp [lookupKey, hp]
      · have hp' : (p.1 == m) = false := by simpa using hp
        simp [lookupKey, hp', ih]

theorem lookupKey_append_single_self {n : String} {l : List Subscription}
    {s : List (String × List Subscription)} (h : containsKey n s = false) :
    lookupKey n (s ++ [(n, l)]) = l := by
  induction s with
  | nil => simp [lookupKey]
  | cons p rest ih =>
      simp only [containsKey, Bool.or_eq_false_iff] at h
      simp [lookupKey, h.1, ih h.2]

theorem containsKey_append {n : String} {s t : List (String × List Subscription)} :
    containsKey n (s ++ t) = (containsKey n s || containsKey n t) := by
  induction s with
  | nil => simp [containsKey]
  | cons p rest ih => simp [containsKey, ih, Bool.or_assoc]

theorem removeKey_append {n : String} {s t : List (String × List Subscription)} :
    removeKey n (s ++ t) = removeKey n s ++ removeKey n t := by
  induction s with
  | nil => rfl
  | cons p rest ih =>
      by_cases hp : (p.1 == n) = true
      · simp [removeKey, hp, ih]
      · have hp' : (p.1 == n) = false := by simpa using hp
        simp [removeKey, hp', ih]

theorem setKey_append {n : String} {l : List Subscription}
    {s t : List (String × List Subscription)} :
    setKey n l (s ++ t) = setKey n l s ++ setKey n l t := by
  induction s with
  | nil => rfl
  | cons p rest ih =>
      by_cases hp : (p.1 == n) = true
      · simp [setKey, hp, ih]
      · have hp' : (p.1 == n) = false := by simpa using hp
        simp [setKey, hp', ih]

/-! ### Emitter-level registry lemmas -/

theorem EventEmitter.getSubs_setSubs_self (e : EventEmitter) (n : String) (l : List Subscription) :
    (e.setSubs n l).getSubs n = l := by
  by_cases hk : containsKey n e.subscriptions = true
  · simp only [EventEmitter.setSubs, EventEmitter.hasKey, hk, if_true, EventEmitter.getSubs]
    exact lookupKey_setKey_self hk
  · have hk' : containsKey n e.subscriptions = false := by simpa using hk
    simp only [EventEmitter.setSubs, EventEmitter.hasKey, hk', Bool.false_eq_true, if_false,
      EventEmitter.getSubs]
    exact lookupKey_append_single_self hk'

theorem EventEmitter.getSubs_setSubs_ne (e : EventEmitter) {n m : String} (hmn : m ≠ n)
    (l : List Subscription) : (e.setSubs n l).getSubs m = e.getSubs m := by
  by_cases hk : containsKey n e.subscriptions = true
  · simp only [EventEmitter.setSubs, EventEmitter.hasKey, hk, if_true, EventEmitter.getSubs]
    exact lookupKey_setKey_ne hmn
  · have hk' : containsKey n e.subscriptions = false := by simpa using hk
    simp only [EventEmitter.setSubs, EventEmitter.hasKey, hk', Bool.false_eq_true, if_false,
      EventEmitter.getSubs]
    exact lookupKey_append_single_ne hmn

theorem EventEmitter.hasKey_setSubs_self (e : EventEmitter) (n : String) (l : List Subscription) :
    (e.setSubs n l).hasKey n = true := by
  by_cases hk : containsKey n e.subscriptions = true
  · simp only [EventEmitter.setSubs, EventEmitter.hasKey, hk, if_true]
    simpa [containsKey_setKey] using hk
  · have hk' : containsKey n e.subscriptions = false := by simpa using hk
    simp only [EventEmitter.setSubs, EventEmitter.hasKey, hk', Bool.false_eq_true, if_false]
    simp [containsKey_append, containsKey]

theorem EventEmitter.getSubs_deleteKey_self (e : EventEmitter) (n : String) :
    (e.deleteKey n).getSubs n = [] := by
  simp only [EventEmitter.deleteKey, EventEmitter.getSubs]
  exact lookupKey_removeKey_self

theorem EventEmitter.getSubs_deleteKey_ne (e : EventEmitter) {n m : String} (hmn : m ≠ n) :
    (e.deleteKey n).getSubs m = e.getSubs m := by
  simp only [EventEmitter.deleteKey, EventEmitter.getSubs]
  exact lookupKey_removeKey_ne hmn

theorem EventEmitter.hasKey_deleteKey_self (e : EventEmitter) (n : String) :
    (e.deleteKey n).hasKey n = false := by
  simp only [EventEmitter.deleteKey, EventEmitter.hasKey]
  exact containsKey_removeKey_self

theorem EventEmitter.deleteKey_of_not_hasKey {e : EventEmitter} {n : String}
    (h : e.hasKey n = false) : e.deleteKey n = e := by
  rcases e with ⟨s⟩
  simp only [EventEmitter.deleteKey, EventEmitter.hasKey] at *
  simp [removeKey_of_not_contains h]

theorem EventEmitter.getSubs_of_not_hasKey {e : EventEmitter} {n : String}
    (h : e.hasKey n = false) : e.getSubs n = [] :=
  lookupKey_of_not_contains h

theorem EventEmitter.hasKey_of_getSubs_ne_nil {e : EventEmitter} {n : String}
    (h : e.getSubs n ≠ []) : e.hasKey n = true := by
  by_contra hk
  exact h (EventEmitter.getSubs_of_not_hasKey (by simpa using hk))

theorem EventEmitter.setSubs_setSubs (e : EventEmitter) (n : String) (l l' : List Subscription) :
    (e.setSubs n l).setSubs n l' = e.setSubs n l' := by
  by_cases hk : containsKey n e.subscriptions = true
  · simp only [EventEmitter.setSubs, EventEmitter.hasKey, hk, if_true, containsKey_setKey]
    simp [setKey_setKey]
  · have hk' : containsKey n e.subscriptions = false := by simpa using hk
    have hk2 : containsKey n (e.subscriptions ++ [(n, l)]) = true := by
      simp [containsKey_append, containsKey]
    simp only [EventEmitter.setSubs, EventEmitter.hasKey, hk', Bool.false_eq_true, if_false,
      hk2, if_true]
    simp [setKey_append, setKey_of_not_contains hk', setKey]

theorem EventEmitter.deleteKey_setSubs (e : EventEmitter) (n : String) (l : List Subscription) :
    (e.setSubs n l).deleteKey n = e.deleteKey n := by
  by_cases hk : containsKey n e.subscriptions = true
  · simp only [EventEmitter.setSubs, EventEmitter.hasKey, hk, if_true, EventEmitter.deleteKey]
    simp [removeKey_setKey]
  · have hk' : containsKey n e.subscriptions = false := by simpa using hk
    simp only [EventEmitter.setSubs, EventEmitter.hasKey, hk', Bool.false_eq_true, if_false,
      EventEmitter.deleteKey]
    simp [removeKey_append, removeKey]

theorem EventEmitter.setSubs_getSubs_self {e : EventEmitter} {n : String}
    (hwf : e.wf = true) (hk : e.hasKey n = true) : e.setSubs n (e.getSubs n) = e := by
  have hnd : keysNodup e.subscriptions = true := by
    simp only [EventEmitter.wf, Bool.and_eq_true] at hwf
    exact hwf.1
  rcases e with ⟨s⟩
  simp only [EventEmitter.setSubs, EventEmitter.hasKey] at *
  simp [hk, EventEmitter.getSubs, setKey_lookupKey_self hnd]

/-! ### Preservation of well-formedness -/

theorem keysNodup_setKey {n : String} {l : List Subscription}
    {s : List (String × List Subscription)} :
    keysNodup (setKey n l s) = keysNodup s := by
  induction s with
  | nil => rfl
  | cons p rest ih =>
      by_cases hp : (p.1 == n) = true
      · have hp1 : p.1 = n := by simpa using hp
        simp [setKey, keysNodup, hp, hp1, containsKey_setKey, ih]
      · have hp' : (p.1 == n) = false := by simpa using hp
        simp [setKey, keysNodup, hp', containsKey_setKey, ih]

theorem keysNodup_removeKey {n : String} {s : List (String × List Subscription)}
    (h : keysNodup s = true) : keysNodup (removeKey n s) = true := by
  induction s with
  | nil => rfl
  | cons p rest ih =>
      simp only [keysNodup, Bool.and_eq_true, Bool.not_eq_true'] at h
      by_cases hp : (p.1 == n) = true
      · simp [removeKey, hp, ih h.2]
      · have hp' : (p.1 == n) = false := by simpa using hp
        have hc : containsKey p.1 (removeKey n rest) = false := by
          by_contra hcc
          have := containsKey_mono_removeKey (n := n) (m := p.1) (s := rest)
            (by simpa using hcc)
          simp [h.1] at this
        simp [removeKey, keysNodup, hp', hc, ih h.2]

theorem keysNodup_append_new {n : String} {l : List Subscription}
    {s : List (String × List Subscription)} (hnd : keysNodup s = true)
    (h : containsKey n s = false) : keysNodup (s ++ [(n, l)]) = true := by
  induction s with
  | nil => simp [keysNodup, containsKey]
  | cons p rest ih =>
      simp only [keysNodup, Bool.and_eq_true, Bool.not_eq_true'] at hnd
      simp only [containsKey, Bool.or_eq_false_iff] at h
      have hpn : (n == p.1) = false := by
        have hne : p.1 ≠ n := by simpa using h.1
        have : ¬ n = p.1 := fun hh => hne hh.symm
        simp [this]
      simp [keysNodup, containsKey_append, hnd.1, ih hnd.2 h.2, containsKey, hpn]

theorem allNonempty_setKey {n : String} {l : List Subscription}
    {s : List (String × List Subscription)} (hl : l ≠ [])
    (h : s.all (fun p => !p.2.isEmpty) = true) :
    (setKey n l s).all (fun p => !p.2.isEmpty) = true := by
  induction s with
  | nil => rfl
  | cons p rest ih =>
      simp only [List.all_cons, Bool.and_eq_true] at h
      by_cases hp : (p.1 == n) = true
      · simp [setKey, hp, ih h.2, List.isEmpty_iff, hl]
      · have hp' : (p.1 == n) = false := by simpa using hp
        simp [setKey, hp', h.1, ih h.2]

theorem allNonempty_removeKey {n : String} {s : List (String × List Subscription)}
    (h : s.all (fun p => !p.2.isEmpty) = true) :
    (removeKey n s).all (fun p => !p.2.isEmpty) = true := by
  induction s with
  | nil => rfl
  | cons p rest ih =>
      simp only [List.all_cons, Bool.and_eq_true] at h
      by_cases hp : (p.1 == n) = true
      · simp [removeKey, hp, ih h.2]
      · have hp' : (p.1 == n) = false := by simpa using hp
        simp [removeKey, hp', h.1, ih h.2]

theorem EventEmitter.wf_setSubs {e : EventEmitter} {n : String} {l : List Subscription}
    (hwf : e.wf = true) (hl : l ≠ []) : (e.setSubs n l).wf = true := by
  simp only [EventEmitter.wf, Bool.and_eq_true] at hwf
  by_cases hk : containsKey n e.subscriptions = true
  · simp only [EventEmitter.setSubs, EventEmitter.hasKey, hk, if_true, EventEmitter.wf,
      Bool.and_eq_true]
    exact ⟨by simp [keysNodup_setKey, hwf.1], allNonempty_setKey hl hwf.2⟩
  · have hk' : containsKey n e.subscriptions = false := by simpa using hk
    simp only [EventEmitter.setSubs, EventEmitter.hasKey, hk', Bool.false_eq_true, if_false,
      EventEmitter.wf, Bool.and_eq_true]
    refine ⟨keysNodup_append_new hwf.1 hk', ?_⟩
    simp [List.all_append, hwf.2, List.isEmpty_iff, hl]

theorem EventEmitter.wf_deleteKey {e : EventEmitter} {n : String} (hwf : e.wf = true) :
    (e.deleteKey n).wf = true := by
  simp only [EventEmitter.wf, Bool.and_eq_true] at hwf ⊢
  exact ⟨keysNodup_removeKey hwf.1, allNonempty_removeKey hwf.2⟩

theorem EventEmitter.wf_empty : EventEmitter.empty.wf = true := by
  simp [EventEmitter.wf, EventEmitter.empty, keysNodup]

theorem EventEmitter.wf_on {e : EventEmitter} {n : String} {h : Handler} {c : Ctx}
    (hwf : e.wf = true) : (e.on n h c).1.wf = true := by
  simp only [EventEmitter.on]
  exact EventEmitter.wf_setSubs hwf (by simp)

theorem EventEmitter.wf_once {e : EventEmitter} {n : String} {h : Handler} {c : Ctx} {w : Nat}
    (hwf : e.wf = true) : (e.once n h c w).1.wf = true :=
  EventEmitter.wf_on hwf

theorem EventEmitter.wf_off {e : EventEmitter} {n : String} {h : Option Handler} {c : Ctx}
    (hwf : e.wf = true) : (e.off n h c).wf = true := by
  simp only [EventEmitter.off]
  split
  · exact EventEmitter.wf_deleteKey hwf
  · next hne =>
      apply EventEmitter.wf_setSubs hwf
      simpa [List.isEmpty_iff] using hne

theorem wf_invokeHandler (h : Handler) : ∀ (e : EventEmitter) (log : List Invocation)
    (receiver : Ctx) (args : List Nat), e.wf = true →
    (invokeHandler e log h receiver args).1.wf = true := by
  induction h with
  | plain id =>
      intro e log r args hwf
      simpa [invokeHandler] using hwf
  | wrapper wid nm orig ctx ih =>
      intro e log r args hwf
      simp only [invokeHandler]
      exact ih _ _ _ _ (EventEmitter.wf_off (by simpa [EventEmitter.runToken] using hwf))

theorem wf_emitLoop (name : String) (args : List Nat) :
    ∀ (fuel k : Nat) (st : EventEmitter × List Invocation), st.1.wf = true →
    (emitLoop name args k fuel st).1.wf = true := by
  intro fuel
  induction fuel with
  | zero => intro k st hwf; simpa [emitLoop] using hwf
  | succ fuel ih =>
      intro k st hwf
      simp only [emitLoop]
      split
      · exact ih _ _ (wf_invokeHandler _ _ _ _ _ hwf)
      · exact ih _ _ hwf

theorem EventEmitter.wf_emit {e : EventEmitter} {n : String} {args : List Nat}
    (hwf : e.wf = true) : (e.emit n args).1.wf = true :=
  wf_emitLoop n args _ 0 (e, []) hwf

/-- Every reachable emitter is well-formed: in particular every name present
as a key holds a non-empty subscription array. -/
theorem Reachable.wf {e : EventEmitter} (h : Reachable e) : e.wf = true := by
  induction h with
  | empty => exact EventEmitter.wf_empty
  | step_on name handler context _ ih => exact EventEmitter.wf_on ih
  | step_once name handler context wid _ ih => exact EventEmitter.wf_once ih
  | step_off name handler context _ ih => exact EventEmitter.wf_off ih
  | step_emit name args _ ih => exact EventEmitter.wf_emit ih

/-! ### First-match search: `find` / `indexOf` / `splice` -/

theorem findIdx?_append_first {α : Type} (p : α → Bool) (l m : List α) (x : α)
    (hl : ∀ y ∈ l, p y = false) (hx : p x = true) :
    (l ++ x :: m).findIdx? p = some l.length := by
  induction l with
  | nil => simp [List.findIdx?_cons, hx]
  | cons a as ih =>
      have ha : p a = false := hl a (by simp)
      have ihh := ih (fun y hy => hl y (by simp [hy]))
      simp [List.findIdx?_cons, ha, List.findIdx?_succ, ihh]

theorem findIdx?_decomp {α : Type} (p : α → Bool) :
    ∀ (l : List α) (i : Nat), l.findIdx? p = some i →
      ∃ x, l.take i ++ x :: l.drop (i + 1) = l ∧ p x = true ∧ ∀ y ∈ l.take i, p y = false := by
  intro l
  induction l with
  | nil => intro i hi; simp [List.findIdx?_nil] at hi
  | cons a as ih =>
      intro i hi
      by_cases ha : p a = true
      · simp only [List.findIdx?_cons, ha, if_true, Option.some.injEq] at hi
        subst hi
        exact ⟨a, by simp, ha, by simp⟩
      · have ha' : p a = false := by simpa using ha
        simp only [List.findIdx?_cons, ha', Bool.false_eq_true, if_false,
          List.findIdx?_succ, Option.map_eq_some'] at hi
        obtain ⟨i', hi', rfl⟩ := hi
        obtain ⟨x, hdec, hx, hpre⟩ := ih i' hi'
        refine ⟨x, ?_, hx, ?_⟩
        · simpa [List.take_succ_cons, List.drop_succ_cons] using congrArg (a :: ·) hdec
        · intro y hy
          rcases List.mem_cons.1 (by simpa [List.take_succ_cons] using hy) with rfl | hy'
          · exact ha'
          · exact hpre y hy'

theorem eraseIdx_append_middle {α : Type} (l m : List α) (x : α) :
    (l ++ x :: m).eraseIdx l.length = l ++ m := by
  induction l with
  | nil => simp
  | cons a as ih => simpa [List.eraseIdx_cons_succ] using ih

/-! ### `off`: no-op and first-match removal -/

theorem lookupKey_ne_nil_of_contains {n : String} {s : List (String × List Subscription)}
    (hall : s.all (fun p => !p.2.isEmpty) = true) (h : containsKey n s = true) :
    lookupKey n s ≠ [] := by
  induction s with
  | nil => simp [containsKey] at h
  | cons p rest ih =>
      simp only [List.all_cons, Bool.and_eq_true] at hall
      by_cases hp : (p.1 == n) = true
      · simp only [lookupKey, hp, if_true]
        simpa [List.isEmpty_iff] using hall.1
      · have hp' : (p.1 == n) = false := by simpa using hp
        simp only [lookupKey, hp', Bool.false_eq_true, if_false]
        exact ih hall.2 (by simpa [containsKey, hp'] using h)

theorem EventEmitter.getSubs_ne_nil_of_wf_hasKey {e : EventEmitter} {n : String}
    (hwf : e.wf = true) (hk : e.hasKey n = true) : e.getSubs n ≠ [] := by
  simp only [EventEmitter.wf, Bool.and_eq_true] at hwf
  exact lookupKey_ne_nil_of_contains hwf.2 hk

/-- On a well-formed emitter, `off` with no matching subscription returns the
state unchanged (the trailing `delete` fires only for an absent key, where it
is a no-op). -/
theorem EventEmitter.off_noMatch {e : EventEmitter} {n : String} {h : Option Handler} {c : Ctx}
    (hwf : e.wf = true)
    (hno : (e.getSubs n).findIdx? (EventEmitter.matchesSubscription h (defaultNull c)) = none) :
    e.off n h c = e := by
  simp only [EventEmitter.off, hno]
  by_cases hk : e.hasKey n = true
  · have hne := EventEmitter.getSubs_ne_nil_of_wf_hasKey hwf hk
    rw [if_neg (by simpa [List.isEmpty_iff] using hne)]
    exact EventEmitter.setSubs_getSubs_self hwf hk
  · have hk' : e.hasKey n = false := by simpa using hk
    rw [if_pos (by simp [EventEmitter.getSubs_of_not_hasKey hk', List.isEmpty_iff])]
    exact EventEmitter.deleteKey_of_not_hasKey hk'

/-- `off` with a first match at index `i`: the subscription array for `name`
becomes the array with index `i` spliced out, and the key is deleted exactly
when that leaves the array empty. -/
theorem EventEmitter.off_found {e : EventEmitter} {n : String} {h : Option Handler} {c : Ctx}
    {i : Nat}
    (hfound : (e.getSubs n).findIdx? (EventEmitter.matchesSubscription h (defaultNull c)) =
      some i) :
    e.off n h c =
      if ((e.getSubs n).eraseIdx i).isEmpty then e.deleteKey n
      else e.setSubs n ((e.getSubs n).eraseIdx i) := by
  simp only [EventEmitter.off, hfound]

theorem EventEmitter.getSubs_off_self {e : EventEmitter} {n : String} {h : Option Handler}
    {c : Ctx} {i : Nat}
    (hfound : (e.getSubs n).findIdx? (EventEmitter.matchesSubscription h (defaultNull c)) =
      some i) :
    (e.off n h c).getSubs n = (e.getSubs n).eraseIdx i := by
  rw [EventEmitter.off_found hfound]
  by_cases hE : ((e.getSubs n).eraseIdx i).isEmpty = true
  · rw [if_pos hE, EventEmitter.getSubs_deleteKey_self]
    exact (List.isEmpty_iff.1 hE).symm
  · rw [if_neg hE, EventEmitter.getSubs_setSubs_self]

theorem EventEmitter.getSubs_off_ne (e : EventEmitter) {n m : String} (hmn : m ≠ n)
    (h : Option Handler) (c : Ctx) : (e.off n h c).getSubs m = e.getSubs m := by
  simp only [EventEmitter.off]
  split
  · exact EventEmitter.getSubs_deleteKey_ne e hmn
  · exact EventEmitter.getSubs_setSubs_ne e hmn _

/-! ### Dispatch over plain handlers -/

theorem invokeHandler_plain {s : Subscription} {id : Nat} (hid : s.handler = .plain id)
    (e : EventEmitter) (log : List Invocation) (args : List Nat) :
    invokeHandler e log s.handler s.context args = (e, log ++ [⟨s.context, id, args⟩]) := by
  rw [hid]
  simp [invokeHandler]

theorem plainLog_cons_of_plain {s : Subscription} {id : Nat} (hid : s.handler = .plain id)
    (args : List Nat) (rest : List Subscription) :
    plainLog args (s :: rest) = ⟨s.context, id, args⟩ :: plainLog args rest := by
  rcases s with ⟨c, h⟩
  cases h with
  | plain j => cases hid; rfl
  | wrapper => simp at hid

theorem plainLog_append (args : List Nat) (l m : List Subscription) :
    plainLog args (l ++ m) = plainLog args l ++ plainLog args m := by
  induction l with
  | nil => rfl
  | cons s rest ih =>
      rcases s with ⟨c, h⟩
      cases h with
      | plain j => simp [plainLog, ih]
      | wrapper => simp [plainLog, ih]

theorem emitLoop_out_of_range (name : String) (args : List Nat) :
    ∀ (fuel k : Nat) (st : EventEmitter × List Invocation),
    (st.1.getSubs name).length ≤ k → emitLoop name args k fuel st = st := by
  intro fuel
  induction fuel with
  | zero => intro k st h; rfl
  | succ fuel ih =>
      intro k st h
      simp only [emitLoop]
      rw [dif_neg (by omega)]
      exact ih (k + 1) st (by omega)

theorem emitLoop_plain (name : String) (args : List Nat) :
    ∀ (fuel k : Nat) (e : EventEmitter) (log : List Invocation),
    (∀ s ∈ ((e.getSubs name).drop k).take fuel, s.handler.isPlain = true) →
    emitLoop name args k fuel (e, log) =
      (e, log ++ plainLog args (((e.getSubs name).drop k).take fuel)) := by
  intro fuel
  induction fuel with
  | zero => intro k e log h; simp [emitLoop, plainLog]
  | succ fuel ih =>
      intro k e log hplain
      by_cases hk : k < (e.getSubs name).length
      · have hdrop : (e.getSubs name).drop k =
            (e.getSubs name).get ⟨k, hk⟩ :: (e.getSubs name).drop (k + 1) := by
          rw [List.get_eq_getElem]
          exact List.drop_eq_getElem_cons hk
        have hmem : (e.getSubs name).get ⟨k, hk⟩ ∈ ((e.getSubs name).drop k).take (fuel + 1) := by
          rw [hdrop, List.take_succ_cons]; exact List.mem_cons_self _ _
        have hP := hplain _ hmem
        obtain ⟨id, hid⟩ : ∃ id, ((e.getSubs name).get ⟨k, hk⟩).handler = .plain id := by
          cases hh : ((e.getSubs name).get ⟨k, hk⟩).handler with
          | plain id => exact ⟨id, rfl⟩
          | wrapper => rw [hh] at hP; simp [Handler.isPlain] at hP
        have hplain' : ∀ s ∈ ((e.getSubs name).drop (k + 1)).take fuel,
            s.handler.isPlain = true := by
          intro s hs
          exact hplain s (by rw [hdrop, List.take_succ_cons]; exact List.mem_cons_of_mem _ hs)
        simp only [emitLoop]
        rw [dif_pos hk, invokeHandler_plain hid, ih (k + 1) e _ hplain']
        rw [hdrop, List.take_succ_cons, plainLog_cons_of_plain hid]
        simp
      · have hlen : (e.getSubs name).length ≤ k := by omega
        rw [emitLoop_out_of_range name args (fuel + 1) k (e, log) hlen]
        rw [List.drop_eq_nil_of_le hlen]
        simp [plainLog]

/-- A single `forEach` pass splits at any fuel split point. -/
theorem emitLoop_add (name : String) (args : List Nat) :
    ∀ (f1 f2 k : Nat) (st : EventEmitter × List Invocation),
    emitLoop name args k (f1 + f2) st = emitLoop name args (k + f1) f2 (emitLoop name args k f1 st) := by
  intro f1
  induction f1 with
  | zero => intro f2 k st; simp [emitLoop]
  | succ f1 ih =>
      intro f2 k st
      have hsucc : f1 + 1 + f2 = (f1 + f2) + 1 := by omega
      rw [hsucc]
      simp only [emitLoop]
      by_cases hk : k < (st.1.getSubs name).length
      · rw [dif_pos hk, dif_pos hk, ih]
        congr 1
        omega
      · rw [dif_neg hk, dif_neg hk, ih]
        congr 1
        omega

/-- Emission over an all-plain subscription list: every handler fires, in
stored order, bound to its stored context, with the arguments forwarded
verbatim; the emitter state is unchanged. -/
theorem EventEmitter.emit_plain {e : EventEmitter} {n : String} (args : List Nat)
    (hplain : ∀ s ∈ e.getSubs n, s.handler.isPlain = true) :
    e.emit n args = (e, plainLog args (e.getSubs n)) := by
  unfold EventEmitter.emit
  rw [emitLoop_plain n args _ 0 e []
    (fun s hs => hplain s (by simpa using List.mem_of_mem_take hs))]
  simp only [List.drop_zero]
  rw [List.take_of_length_le (le_refl _)]
  simp

/-! ### Dispatch across a single once-wrapper -/

theorem matchesSubscription_plain_vs_wrapper {s : Subscription} (hP : s.handler.isPlain = true)
    {w : Handler} (hw : w.isPlain = false) (c : Ctx) :
    EventEmitter.matchesSubscription (some w) c s = false := by
  rcases s with ⟨sc, sh⟩
  cases sh with
  | plain id =>
      cases w with
      | plain j => simp [Handler.isPlain] at hw
      | wrapper w2 nm orig cw =>
          simp [EventEmitter.matchesSubscription, looseEqHandler, Handler.original]
  | wrapper => simp [Handler.isPlain] at hP

theorem matchesSubscription_self_wrapper (w : Nat) (nm : String) (orig : Handler) (c : Ctx) :
    EventEmitter.matchesSubscription (some (.wrapper w nm orig c)) (defaultNull c)
      ⟨defaultNull c, .wrapper w nm orig c⟩ = true := by
  simp [EventEmitter.matchesSubscription, looseEqHandler, Ctx.looseEq_refl]

theorem get_append_middle {α : Type} (l m : List α) (x : α)
    (h : l.length < (l ++ x :: m).length) :
    (l ++ x :: m).get ⟨l.length, h⟩ = x := by
  induction l with
  | nil => rfl
  | cons a as ih => simpa [List.get_cons_succ] using ih (by simp)

theorem invokeHandler_wrapper_plain (e : EventEmitter) (log : List Invocation)
    (w f : Nat) (nm : String) (c recv : Ctx) (args : List Nat) :
    invokeHandler e log (.wrapper w nm (.plain f) c) recv args =
      (e.off nm (some (.wrapper w nm (.plain f) c)) (defaultNull c), log ++ [⟨c, f, args⟩]) := by
  simp [invokeHandler, EventEmitter.runToken]

theorem emitLoop_cons_step (name : String) (args : List Nat) (k fuel : Nat)
    (e : EventEmitter) (log : List Invocation) (hk : k < (e.getSubs name).length) :
    emitLoop name args k (fuel + 1) (e, log) =
      emitLoop name args (k + 1) fuel
        (invokeHandler e log ((e.getSubs name).get ⟨k, hk⟩).handler
          ((e.getSubs name).get ⟨k, hk⟩).context args) := by
  simp only [emitLoop]
  rw [dif_pos hk]

/-- The first match `off` finds for a once-wrapper token is the wrapper's own
subscription, when every earlier subscription holds a plain handler. -/
theorem findIdx_off_wrapper {e : EventEmitter} {n : String} {l m : List Subscription}
    {w f : Nat} {c : Ctx}
    (hsubs : e.getSubs n = l ++ ⟨defaultNull c, .wrapper w n (.plain f) c⟩ :: m)
    (hl : ∀ s ∈ l, s.handler.isPlain = true) :
    (e.getSubs n).findIdx?
      (EventEmitter.matchesSubscription (some (.wrapper w n (.plain f) c))
        (defaultNull (defaultNull c))) = some l.length := by
  rw [defaultNull_idem, hsubs]
  exact findIdx?_append_first _ _ _ _
    (fun y hy => matchesSubscription_plain_vs_wrapper (hl y hy) (by simp [Handler.isPlain]) _)
    (matchesSubscription_self_wrapper w n (.plain f) c)

/-- The state the wrapper's self-removal leaves behind: the wrapper's slot is
spliced out, and the key is deleted exactly when nothing remains. -/
theorem EventEmitter.off_wrapper_state {e : EventEmitter} {n : String} {l m : List Subscription}
    {w f : Nat} {c : Ctx}
    (hsubs : e.getSubs n = l ++ ⟨defaultNull c, .wrapper w n (.plain f) c⟩ :: m)
    (hl : ∀ s ∈ l, s.handler.isPlain = true) :
    e.off n (some (.wrapper w n (.plain f) c)) (defaultNull c) =
      if (l ++ m).isEmpty then e.deleteKey n else e.setSubs n (l ++ m) := by
  rw [EventEmitter.off_found (findIdx_off_wrapper hsubs hl), hsubs, eraseIdx_append_middle]

/-- One `emit` over subscriptions `l ++ [wrapper] ++ m` with `l`, `m` plain:
the `l` handlers fire, the wrapper removes itself and fires its original with
the raw captured context, and — because the splice shifted the array under
the running `forEach` — the element that followed the wrapper is skipped
while the rest of `m` still fires.  The final state is the wrapper-free
registry. -/
theorem EventEmitter.emit_one_wrapper {e : EventEmitter} {n : String} {l m : List Subscription}
    {w f : Nat} {c : Ctx} (args : List Nat)
    (hsubs : e.getSubs n = l ++ ⟨defaultNull c, .wrapper w n (.plain f) c⟩ :: m)
    (hl : ∀ s ∈ l, s.handler.isPlain = true)
    (hm : ∀ s ∈ m, s.handler.isPlain = true) :
    e.emit n args =
      (e.off n (some (.wrapper w n (.plain f) c)) (defaultNull c),
        plainLog args l ++ ⟨c, f, args⟩ :: plainLog args (m.drop 1)) := by
  have hfound := findIdx_off_wrapper hsubs hl
  have hlen : (e.getSubs n).length = l.length + (1 + m.length) := by
    rw [hsubs]; simp; omega
  have hk1 : l.length < (e.getSubs n).length := by omega
  have hsubs' : (e.off n (some (.wrapper w n (.plain f) c)) (defaultNull c)).getSubs n =
      l ++ m := by
    rw [EventEmitter.getSubs_off_self hfound, hsubs, eraseIdx_append_middle]
  have hfirst : ((e.getSubs n).drop 0).take l.length = l := by
    rw [List.drop_zero, hsubs, List.take_left]
  have hpre : ∀ s ∈ ((e.getSubs n).drop 0).take l.length, s.handler.isPlain = true := by
    rw [hfirst]; exact hl
  have hget : (e.getSubs n).get ⟨l.length, hk1⟩ =
      (⟨defaultNull c, .wrapper w n (.plain f) c⟩ : Subscription) := by
    rw [List.get_of_eq hsubs]
    exact get_append_middle _ _ _ _
  unfold EventEmitter.emit
  rw [hlen, emitLoop_add n args l.length (1 + m.length) 0 (e, [])]
  rw [emitLoop_plain n args l.length 0 e [] hpre, hfirst]
  simp only [List.nil_append, Nat.zero_add]
  rw [Nat.add_comm 1 m.length]
  rw [emitLoop_cons_step n args l.length m.length e (plainLog args l) hk1]
  rw [hget]
  rw [invokeHandler_wrapper_plain]
  have hdrop3 : ((e.off n (some (.wrapper w n (.plain f) c)) (defaultNull c)).getSubs n).drop
      (l.length + 1) = m.drop 1 := by
    rw [hsubs', ← List.drop_drop, List.drop_left]
  have hpost : ∀ s ∈ (((e.off n (some (.wrapper w n (.plain f) c))
      (defaultNull c)).getSubs n).drop (l.length + 1)).take m.length,
      s.handler.isPlain = true := by
    intro s hs
    rw [hdrop3] at hs
    exact hm s (List.mem_of_mem_drop (List.mem_of_mem_take hs))
  rw [emitLoop_plain n args m.length (l.length + 1) _ _ hpost, hdrop3]
  rw [List.take_of_length_le (by simp)]
  simp

/-! ### Freshness: a function absent from a name's subscriptions never runs -/

theorem EventEmitter.mem_getSubs_off {e : EventEmitter} {n n' : String} {h : Option Handler}
    {c : Ctx} {s : Subscription} (hs : s ∈ (e.off n' h c).getSubs n) : s ∈ e.getSubs n := by
  by_cases hnn : n = n'
  · subst hnn
    rcases hFI : (e.getSubs n).findIdx? (EventEmitter.matchesSubscription h (defaultNull c))
      with _ | i
    · simp only [EventEmitter.off, hFI] at hs
      by_cases hE : (e.getSubs n).isEmpty = true
      · rw [if_pos hE, EventEmitter.getSubs_deleteKey_self] at hs
        simp at hs
      · rw [if_neg hE, EventEmitter.getSubs_setSubs_self] at hs
        exact hs
    · simp only [EventEmitter.off, hFI] at hs
      by_cases hE : ((e.getSubs n).eraseIdx i).isEmpty = true
      · rw [if_pos hE, EventEmitter.getSubs_deleteKey_self] at hs
        simp at hs
      · rw [if_neg hE, EventEmitter.getSubs_setSubs_self] at hs
        exact (List.eraseIdx_sublist (e.getSubs n) i).subset hs
  · rw [EventEmitter.getSubs_off_ne e hnn h c] at hs
    exact hs

theorem mem_getSubs_invokeHandler (h : Handler) : ∀ (e : EventEmitter) (log : List Invocation)
    (recv : Ctx) (args : List Nat) {n : String} {s : Subscription},
    s ∈ (invokeHandler e log h recv args).1.getSubs n → s ∈ e.getSubs n := by
  induction h with
  | plain id =>
      intro e log recv args n s hs
      simpa [invokeHandler] using hs
  | wrapper wid nm orig ctx ih =>
      intro e log recv args n s hs
      simp only [invokeHandler] at hs
      exact EventEmitter.mem_getSubs_off (ih _ _ _ _ hs)

theorem log_invokeHandler (h : Handler) : ∀ (e : EventEmitter) (log : List Invocation)
    (recv : Ctx) (args : List Nat) {v : Invocation},
    v ∈ (invokeHandler e log h recv args).2 → v ∈ log ∨ h.mentions v.fn = true := by
  induction h with
  | plain id =>
      intro e log recv args v hv
      simp only [invokeHandler] at hv
      rcases List.mem_append.1 hv with hv | hv
      · exact Or.inl hv
      · right
        have : v = ⟨recv, id, args⟩ := by simpa using hv
        simp [this, Handler.mentions]
  | wrapper wid nm orig ctx ih =>
      intro e log recv args v hv
      simp only [invokeHandler] at hv
      rcases ih _ _ _ _ hv with hv' | hv'
      · exact Or.inl hv'
      · exact Or.inr (by simpa [Handler.mentions] using hv')

theorem emitLoop_no_mention (name : String) (args : List Nat) (f : Nat) :
    ∀ (fuel k : Nat) (e : EventEmitter) (log : List Invocation),
    (∀ s ∈ e.getSubs name, s.handler.mentions f = false) →
    ∀ v ∈ (emitLoop name args k fuel (e, log)).2, v ∈ log ∨ v.fn ≠ f := by
  intro fuel
  induction fuel with
  | zero =>
      intro k e log hinv v hv
      exact Or.inl (by simpa [emitLoop] using hv)
  | succ fuel ih =>
      intro k e log hinv v hv
      simp only [emitLoop] at hv
      by_cases hk : k < (e.getSubs name).length
      · rw [dif_pos hk] at hv
        have hmem : (e.getSubs name).get ⟨k, hk⟩ ∈ e.getSubs name := List.get_mem _ _ hk
        have hinv' : ∀ s ∈ (invokeHandler e log ((e.getSubs name).get ⟨k, hk⟩).handler
            ((e.getSubs name).get ⟨k, hk⟩).context args).1.getSubs name,
            s.handler.mentions f = false := by
          intro s hs
          exact hinv s (mem_getSubs_invokeHandler _ _ _ _ _ hs)
        rcases ih (k + 1) _ _ hinv' v hv with hv' | hv'
        · rcases log_invokeHandler _ _ _ _ _ hv' with hv'' | hv''
          · exact Or.inl hv''
          · right
            intro hEq
            rw [hEq] at hv''
            rw [hinv _ hmem] at hv''
            exact Bool.false_ne_true hv''
        · exact Or.inr hv'
      · rw [dif_neg hk] at hv
        exact ih (k + 1) e log hinv v hv

theorem EventEmitter.emit_no_mention {e : EventEmitter} {n : String} {f : Nat} (args : List Nat)
    (hinv : ∀ s ∈ e.getSubs n, s.handler.mentions f = false) :
    ∀ v ∈ (e.emit n args).2, v.fn ≠ f := by
  intro v hv
  rcases emitLoop_no_mention n args f _ 0 e [] hinv v hv with h | h
  · simp at h
  · exact h

theorem plainLog_no_mention {f : Nat} (args : List Nat) : ∀ (l : List Subscription),
    (∀ s ∈ l, s.handler ≠ .plain f) → ∀ v ∈ plainLog args l, v.fn ≠ f := by
  intro l
  induction l with
  | nil => intro _ v hv; simp [plainLog] at hv
  | cons s rest ih =>
      intro hfr v hv
      rcases s with ⟨c, h⟩
      cases h with
      | plain id =>
          simp only [plainLog] at hv
          rcases List.mem_cons.1 hv with rfl | hv'
          · intro hEq
            exact hfr ⟨c, .plain id⟩ (by simp) (by simpa using congrArg Handler.plain hEq)
          · exact ih (fun t ht => hfr t (by simp [ht])) v hv'
      | wrapper w nm orig cw =>
          simp only [plainLog] at hv
          exact ih (fun t ht => hfr t (by simp [ht])) v hv

theorem plainLog_filter_fresh {f : Nat} (args : List Nat) {l : List Subscription}
    (hfr : ∀ s ∈ l, s.handler ≠ .plain f) :
    (plainLog args l).filter (fun v => v.fn == f) = [] := by
  rw [List.filter_eq_nil_iff]
  intro v hv
  simp [plainLog_no_mention args l hfr v hv]

theorem emitLogs_plain {e : EventEmitter} {n : String}
    (hplain : ∀ s ∈ e.getSubs n, s.handler.isPlain = true) :
    ∀ argsList : List (List Nat),
    emitLogs e n argsList = argsList.map (fun args => plainLog args (e.getSubs n)) := by
  intro argsList
  induction argsList with
  | nil => rfl
  | cons args rest ih =>
      simp [emitLogs, EventEmitter.emit_plain args hplain, ih]

/-! ### State restoration once a wrapper has fired -/

theorem EventEmitter.on_state (e : EventEmitter) (n : String) (h : Handler) (c : Ctx) :
    (e.on n h c).1 = e.setSubs n (e.getSubs n ++ [⟨defaultNull c, h⟩]) := rfl

theorem EventEmitter.on_token (e : EventEmitter) (n : String) (h : Handler) (c : Ctx) :
    (e.on n h c).2 = ⟨n, h, defaultNull c⟩ := rfl

theorem EventEmitter.once_state (e : EventEmitter) (n : String) (h : Handler) (c : Ctx)
    (w : Nat) : (e.once n h c w).1 =
      e.setSubs n (e.getSubs n ++ [⟨defaultNull c, .wrapper w n h c⟩]) := rfl

theorem EventEmitter.once_token (e : EventEmitter) (n : String) (h : Handler) (c : Ctx)
    (w : Nat) : (e.once n h c w).2 = ⟨n, .wrapper w n h c, defaultNull c⟩ := rfl

/-- Removing again whatever a `setSubs` added on top of the old array — and
deleting the key if the old array was empty — recovers the original
well-formed emitter. -/
theorem EventEmitter.setSubs_then_restore {e : EventEmitter} {n : String}
    {L : List Subscription} (hwf : e.wf = true) :
    (if (e.getSubs n).isEmpty then (e.setSubs n L).deleteKey n
      else (e.setSubs n L).setSubs n (e.getSubs n)) = e := by
  by_cases hold : e.getSubs n = []
  · rw [hold]
    simp only [List.isEmpty_nil, if_true]
    rw [EventEmitter.deleteKey_setSubs]
    apply EventEmitter.deleteKey_of_not_hasKey
    by_contra hk
    exact EventEmitter.getSubs_ne_nil_of_wf_hasKey hwf (by simpa using hk) hold
  · rw [if_neg (by simpa [List.isEmpty_iff] using hold)]
    rw [EventEmitter.setSubs_setSubs]
    exact EventEmitter.setSubs_getSubs_self hwf (EventEmitter.hasKey_of_getSubs_ne_nil hold)

/-- From a well-formed emitter whose subscriptions for `n` are all plain,
registering a `once` and emitting fires every plain handler and then the
`once` original (with the raw captured context), and restores the emitter to
exactly its previous state. -/
theorem EventEmitter.once_emit_restores {e : EventEmitter} {n : String} {f w : Nat} {c : Ctx}
    (hwf : e.wf = true)
    (hplain : ∀ s ∈ e.getSubs n, s.handler.isPlain = true) (args : List Nat) :
    (e.once n (.plain f) c w).1.emit n args =
      (e, plainLog args (e.getSubs n) ++ [⟨c, f, args⟩]) := by
  rw [EventEmitter.once_state]
  have hsubs1 : (e.setSubs n
        (e.getSubs n ++ [⟨defaultNull c, .wrapper w n (.plain f) c⟩])).getSubs n =
      e.getSubs n ++ ⟨defaultNull c, .wrapper w n (.plain f) c⟩ :: [] :=
    EventEmitter.getSubs_setSubs_self e n _
  rw [EventEmitter.emit_one_wrapper args hsubs1 hplain (fun s hs => absurd hs (List.not_mem_nil s))]
  rw [EventEmitter.off_wrapper_state hsubs1 hplain]
  simp only [List.append_nil]
  rw [EventEmitter.setSubs_then_restore hwf]
  simp [plainLog]

/-! ### Concrete emitters used in instance checks -/

def sampleSingle : EventEmitter := (EventEmitter.empty.on "e" (.plain 5) .null).1

def sampleTok : Token := (EventEmitter.empty.on "e" (.plain 5) .null).2

def sampleDup : EventEmitter := (sampleSingle.on "e" (.plain 5) .null).1

def sampleOnceThenOn : EventEmitter :=
  ((EventEmitter.empty.once "e" (.plain 0) .null 100).1.on "e" (.plain 1) .null).1

/-! ### Claim C3 -/

/-- C3: `off(name, handler, context)` removes at most one subscription — the
first, in sequence order, satisfying the matching rule (loose context
equality, and handler identity or once-original identity), even when
duplicate registrations exist — and with no match it is a silent no-op that
leaves the registry unchanged. -/
theorem C3_off_removes_first_match (e : EventEmitter) (n : String) (h : Option Handler)
    (c : Ctx) (hwf : e.wf = true) :
    ((e.getSubs n).findIdx? (EventEmitter.matchesSubscription h (defaultNull c)) = none →
      e.off n h c = e) ∧
    (∀ i, (e.getSubs n).findIdx? (EventEmitter.matchesSubscription h (defaultNull c)) = some i →
      (e.off n h c).getSubs n = (e.getSubs n).eraseIdx i ∧
      (∀ m, m ≠ n → (e.off n h c).getSubs m = e.getSubs m) ∧
      ∃ x, (e.getSubs n).take i ++ x :: (e.getSubs n).drop (i + 1) = e.getSubs n ∧
        EventEmitter.matchesSubscription h (defaultNull c) x = true ∧
        ∀ y ∈ (e.getSubs n).take i,
          EventEmitter.matchesSubscription h (defaultNull c) y = false) := by
  refine ⟨fun hno => EventEmitter.off_noMatch hwf hno, fun i hfound => ?_⟩
  exact ⟨EventEmitter.getSubs_off_self hfound,
    fun m hm => EventEmitter.getSubs_off_ne e hm h c,
    findIdx?_decomp _ _ i hfound⟩

theorem C3_off_removes_first_match_witness :
    sampleDup.off "e" (some (.plain 9)) .null = sampleDup ∧
    (sampleDup.off "e" (some (.plain 5)) .null).getSubs "e" =
      (sampleDup.getSubs "e").eraseIdx 0 :=
  ⟨(C3_off_removes_first_match sampleDup "e" (some (.plain 9)) .null (by decide)).1 (by decide),
   ((C3_off_removes_first_match sampleDup "e" (some (.plain 5)) .null (by decide)).2 0
     (by decide)).1⟩

/-! ### Claim C6 -/

/-- C6: in every emitter state reachable through `on`, `once`, `emit`, and
`off`, every name present as a key in the registry has a non-empty
subscription array: `on` never installs an empty array, and `off` deletes the
key when it removes the last subscription. -/
theorem C6_reachable_key_nonempty {e : EventEmitter} (h : Reachable e) :
    ∀ n : String, e.hasKey n = true → e.getSubs n ≠ [] := fun _ hk =>
  EventEmitter.getSubs_ne_nil_of_wf_hasKey h.wf hk

theorem C6_reachable_key_nonempty_witness :
    (EventEmitter.empty.on "e" (.plain 0) .null).1.getSubs "e" ≠ [] :=
  C6_reachable_key_nonempty
    (Reachable.step_on "e" (.plain 0) .null Reachable.empty) "e" (by decide)

/-! ### Claim C8 (corrected)

`on` performs no validation, so the stored handler slot can hold any JS
value, not only a function.  That matters to `off`: its matcher evaluates
`subscription.handler == handler` and, when that is false, reads
`subscription.handler[ORIGINAL_SYMBOL]` — a property read that throws a
TypeError when the stored value is nullish.  The following slice extends the
model with nullish stored handlers and renders `off` as the fallible
operation the source actually is.  (Other non-callable primitives coerce to
wrapper objects and read the tag back as `undefined` without throwing, so
nullish stored handlers are the registry's only error path of its own;
`on`/`once` read nothing off their arguments and cannot throw, and a nullish
handler invoked by `emit` fails as a handler invocation, which the claim
allows.) -/

/-- A value stored in (or passed as) a handler slot: `undefined`, `null`, or
a function. -/
inductive HandlerSlot where
  | undef
  | null
  | fn (h : Handler)
deriving DecidableEq

/-- An error raised by the registry's own code. -/
inductive JsError where
  | typeError
deriving DecidableEq

def HandlerSlot.isFn : HandlerSlot → Bool
  | .fn _ => true
  | _ => false

/-- JS `==` between two handler-slot values: nullish values are loosely
equal to each other, functions compare by identity, and a function is never
loosely equal to a nullish value. -/
def looseEqSlot : HandlerSlot → HandlerSlot → Bool
  | .fn a, .fn b => a == b
  | .fn _, _ => false
  | _, .fn _ => false
  | _, _ => true

/-- `value[ORIGINAL_SYMBOL]`: the property read throws a TypeError on a
nullish value, yields the wrapped original on a once-wrapper, and yields
`undefined` on any other function. -/
def HandlerSlot.readOriginal : HandlerSlot → Except JsError HandlerSlot
  | .undef => .error .typeError
  | .null => .error .typeError
  | .fn (.plain _) => .ok .undef
  | .fn (.wrapper _ _ orig _) => .ok (.fn orig)

structure SubscriptionV where
  context : Ctx
  handler : HandlerSlot
deriving DecidableEq

structure EventEmitterV where
  subscriptions : List (String × List SubscriptionV)
deriving DecidableEq

def lookupKeyV (name : String) : List (String × List SubscriptionV) → List SubscriptionV
  | [] => []
  | p :: rest => if p.1 == name then p.2 else lookupKeyV name rest

def containsKeyV (name : String) : List (String × List SubscriptionV) → Bool
  | [] => false
  | p :: rest => p.1 == name || containsKeyV name rest

def setKeyV (name : String) (l : List SubscriptionV) :
    List (String × List SubscriptionV) → List (String × List SubscriptionV)
  | [] => []
  | p :: rest =>
      if p.1 == name then (name, l) :: setKeyV name l rest else p :: setKeyV name l rest

def removeKeyV (name : String) :
    List (String × List SubscriptionV) → List (String × List SubscriptionV)
  | [] => []
  | p :: rest => if p.1 == name then removeKeyV name rest else p :: removeKeyV name rest

def EventEmitterV.empty : EventEmitterV := ⟨[]⟩

def EventEmitterV.getSubs (e : EventEmitterV) (name : String) : List SubscriptionV :=
  lookupKeyV name e.subscriptions

def EventEmitterV.hasKey (e : EventEmitterV) (name : String) : Bool :=
  containsKeyV name e.subscriptions

def EventEmitterV.setSubs (e : EventEmitterV) (name : String) (l : List SubscriptionV) :
    EventEmitterV :=
  if e.hasKey name then ⟨setKeyV name l e.subscriptions⟩ else ⟨e.subscriptions ++ [(name, l)]⟩

def EventEmitterV.deleteKey (e : EventEmitterV) (name : String) : EventEmitterV :=
  ⟨removeKeyV name e.subscriptions⟩

/-- `on(name, handler, context = null)` over an arbitrary handler value: the
body reads nothing off `handler`, so it accepts any value and never throws
(the returned bound-`off` token is omitted from this slice). -/
def EventEmitterV.onV (e : EventEmitterV) (name : String) (handler : HandlerSlot)
    (context : Ctx) : EventEmitterV :=
  let context := defaultNull context
  e.setSubs name (e.getSubs name ++ [⟨context, handler⟩])

/-- The `matchesSubscription` predicate evaluated exactly as the source
evaluates it over an arbitrary stored value: the context `==` first, then
`subscription.handler == handler`, and only when that is false the
`ORIGINAL_SYMBOL` read — which throws on a nullish stored handler. -/
def matchesSubscriptionV (handler : HandlerSlot) (context : Ctx) (s : SubscriptionV) :
    Except JsError Bool := do
  let matchesContext := Ctx.looseEq s.context context
  let matchesHandler ←
    if looseEqSlot s.handler handler then pure true
    else do
      let tag ← s.handler.readOriginal
      pure (looseEqSlot tag handler)
  return (matchesHandler && matchesContext)

/-- `Array.prototype.find` (by index) with a predicate that can throw: the
first error raised propagates to the caller. -/
def findIdxV (p : SubscriptionV → Except JsError Bool) :
    List SubscriptionV → Except JsError (Option Nat)
  | [] => .ok none
  | s :: rest => do
      if (← p s) then
        return some 0
      else
        return (← findIdxV p rest).map (· + 1)

/-- `off(name, handler, context = null)` over arbitrary stored values:
identical to `EventEmitter.off` (first-match splice, key deletion on
emptiness) except that evaluating the matcher can throw a TypeError, which
aborts the call. -/
def EventEmitterV.offV (e : EventEmitterV) (name : String) (handler : HandlerSlot)
    (context : Ctx) : Except JsError EventEmitterV := do
  let context := defaultNull context
  let subs := e.getSubs name
  let idx ← findIdxV (matchesSubscriptionV handler context) subs
  let subs' :=
    match idx with
    | some i => subs.eraseIdx i
    | none => subs
  return (if subs'.isEmpty then e.deleteKey name else e.setSubs name subs')

/-- The `off` handler argument a slot value corresponds to in the main model
(`undefined` and `null` both compare like a missing handler there). -/
def HandlerSlot.toArg : HandlerSlot → Option Handler
  | .fn h => some h
  | _ => none

/-- On a function-valued subscription the fallible matcher never throws and
computes exactly the total matcher of the main model. -/
theorem matchesSubscriptionV_fn (harg : HandlerSlot) (c cs : Ctx) (h : Handler) :
    matchesSubscriptionV harg c ⟨cs, .fn h⟩ =
      .ok (EventEmitter.matchesSubscription harg.toArg c ⟨cs, h⟩) := by
  cases harg with
  | undef =>
      cases h <;>
        simp [matchesSubscriptionV, EventEmitter.matchesSubscription, looseEqSlot,
          looseEqHandler, HandlerSlot.readOriginal, HandlerSlot.toArg, Handler.original]
  | null =>
      cases h <;>
        simp [matchesSubscriptionV, EventEmitter.matchesSubscription, looseEqSlot,
          looseEqHandler, HandlerSlot.readOriginal, HandlerSlot.toArg, Handler.original]
  | fn g =>
      by_cases hb : (h == g) = true
      · simp [matchesSubscriptionV, EventEmitter.matchesSubscription, looseEqSlot,
          looseEqHandler, HandlerSlot.toArg, hb]
        rfl
      · have hb' : (h == g) = false := by simpa using hb
        cases h <;>
          simp [matchesSubscriptionV, EventEmitter.matchesSubscription, looseEqSlot,
            looseEqHandler, HandlerSlot.readOriginal, HandlerSlot.toArg, Handler.original,
            hb']

/-- Searching a list of function-valued subscriptions never throws. -/
theorem findIdxV_ok_of_fn (harg : HandlerSlot) (c : Ctx) :
    ∀ l : List SubscriptionV, (∀ s ∈ l, s.handler.isFn = true) →
    ∃ r, findIdxV (matchesSubscriptionV harg c) l = .ok r := by
  intro l
  induction l with
  | nil => exact fun _ => ⟨none, rfl⟩
  | cons s rest ih =>
      intro hfn
      have hS : s.handler.isFn = true := hfn s (List.mem_cons_self s rest)
      have hfn' : ∀ t ∈ rest, t.handler.isFn = true :=
        fun t ht => hfn t (List.mem_cons_of_mem s ht)
      obtain ⟨r, hr⟩ := ih hfn'
      rcases s with ⟨sc, sh⟩
      cases sh with
      | undef => simp [HandlerSlot.isFn] at hS
      | null => simp [HandlerSlot.isFn] at hS
      | fn hh =>
          cases hm : EventEmitter.matchesSubscription harg.toArg c ⟨sc, hh⟩ with
          | true =>
              refine ⟨some 0, ?_⟩
              simp only [findIdxV]
              rw [matchesSubscriptionV_fn, hm]
              rfl
          | false =>
              refine ⟨r.map (· + 1), ?_⟩
              simp only [findIdxV]
              rw [matchesSubscriptionV_fn, hm, hr]
              rfl

/-- The post-search array: the found index spliced out, or the array
untouched when nothing matched. -/
def spliceAt (subs : List SubscriptionV) : Option Nat → List SubscriptionV
  | some i => subs.eraseIdx i
  | none => subs

/-- When the search succeeds, `off` over arbitrary stored values computes
the same first-match splice (and key deletion on emptiness) as the main
model's `off`. -/
theorem EventEmitterV.offV_eq (e : EventEmitterV) (n : String) (harg : HandlerSlot)
    (c : Ctx) {r : Option Nat}
    (hr : findIdxV (matchesSubscriptionV harg (defaultNull c)) (e.getSubs n) = .ok r) :
    e.offV n harg c = .ok
      (if (spliceAt (e.getSubs n) r).isEmpty then e.deleteKey n
        else e.setSubs n (spliceAt (e.getSubs n) r)) := by
  simp only [EventEmitterV.offV]
  rw [hr]
  rfl

/-- `off` raises no error of its own as long as no subscription stored under
the name holds a nullish handler value. -/
theorem EventEmitterV.offV_ok_of_fn (e : EventEmitterV) (n : String) (harg : HandlerSlot)
    (c : Ctx) (hfn : ∀ s ∈ e.getSubs n, s.handler.isFn = true) :
    ∃ e', e.offV n harg c = .ok e' := by
  obtain ⟨r, hr⟩ := findIdxV_ok_of_fn harg (defaultNull c) (e.getSubs n) hfn
  exact ⟨_, EventEmitterV.offV_eq e n harg c hr⟩

def sampleNullishStored : EventEmitterV := EventEmitterV.empty.onV "x" .undef .null

/-- C8 as stated is false on the code: after `on(name, undefined)` — the
source accepts any handler value without validation — calling
`off(name, f)` with a function throws a TypeError inside `off` itself
(property read `subscription.handler[ORIGINAL_SYMBOL]` on `undefined`,
reached because `undefined == f` is false), an error of the registry's own
observable outside `emit`. -/
theorem C8_counterexample :
    sampleNullishStored.offV "x" (.fn (.plain 3)) .null = .error .typeError := by rfl

/-- C8 corrected: `emit` with no subscribers and `off` with no match are
silent no-ops, and an `off` call raises no error of its own whenever no
subscription stored under the name holds a nullish handler value (in
particular on every registry holding only functions); only a nullish stored
handler makes `off` itself throw. -/
theorem C8_amended_silent_noops (e : EventEmitter) (eV : EventEmitterV) (n : String)
    (h : Option Handler) (hV : HandlerSlot) (c : Ctx) (args : List Nat)
    (hwf : e.wf = true)
    (hfn : ∀ s ∈ eV.getSubs n, s.handler.isFn = true) :
    (e.getSubs n = [] → e.emit n args = (e, [])) ∧
    ((e.getSubs n).findIdx? (EventEmitter.matchesSubscription h (defaultNull c)) = none →
      e.off n h c = e) ∧
    ∃ e', eV.offV n hV c = .ok e' := by
  refine ⟨fun hnil => ?_, fun hno => EventEmitter.off_noMatch hwf hno,
    EventEmitterV.offV_ok_of_fn eV n hV c hfn⟩
  unfold EventEmitter.emit
  rw [hnil]
  rfl

def sampleFnV : EventEmitterV := EventEmitterV.empty.onV "e" (.fn (.plain 5)) .null

theorem C8_amended_silent_noops_witness :
    EventEmitter.empty.emit "e" [1] = (EventEmitter.empty, []) ∧
    EventEmitter.empty.off "e" (some (.plain 3)) .null = EventEmitter.empty ∧
    ∃ e', sampleFnV.offV "e" (.fn (.plain 9)) .null = .ok e' := by
  have h := C8_amended_silent_noops EventEmitter.empty sampleFnV "e" (some (.plain 3))
    (.fn (.plain 9)) .null [1] (by decide) (by decide)
  exact ⟨h.1 (by decide), h.2.1 (by decide), h.2.2⟩

/-! ### Claim C10 -/

theorem matches_undefined (s : Subscription) :
    EventEmitter.matchesSubscription none (defaultNull .null) s =
      (s.handler.isPlain && Ctx.looseEq s.context .null) := by
  rcases s with ⟨c, h⟩
  cases h <;>
    simp [EventEmitter.matchesSubscription, looseEqHandler, Handler.original,
      Handler.isPlain, defaultNull]

/-- C10: `off(name, h)` with `h` undefined and the context defaulted removes
the first plain subscription stored with a nullish context: the plain
handler carries no `ORIGINAL_SYMBOL` tag, the tag read yields `undefined`,
and `undefined == undefined` satisfies the matching rule, while the stored
handler itself never equals `undefined`. -/
theorem C10_off_undefined_removes_plain (e : EventEmitter) (n : String) (i : Nat)
    (hfound : (e.getSubs n).findIdx?
      (fun s => s.handler.isPlain && Ctx.looseEq s.context .null) = some i) :
    (e.off n none .null).getSubs n = (e.getSubs n).eraseIdx i ∧
    ∃ x, (e.getSubs n).take i ++ x :: (e.getSubs n).drop (i + 1) = e.getSubs n ∧
      x.handler.isPlain = true ∧ Ctx.looseEq x.context .null = true ∧
      ∀ y ∈ (e.getSubs n).take i,
        (y.handler.isPlain && Ctx.looseEq y.context .null) = false := by
  have hpred : EventEmitter.matchesSubscription none (defaultNull Ctx.null) =
      (fun s => s.handler.isPlain && Ctx.looseEq s.context .null) := funext matches_undefined
  have hfound' : (e.getSubs n).findIdx?
      (EventEmitter.matchesSubscription none (defaultNull Ctx.null)) = some i := by
    rw [hpred]; exact hfound
  refine ⟨EventEmitter.getSubs_off_self hfound', ?_⟩
  obtain ⟨x, hdec, hx, hpre⟩ := findIdx?_decomp _ _ i hfound
  have hx' : x.handler.isPlain = true ∧ Ctx.looseEq x.context .null = true := by
    simpa [Bool.and_eq_true] using hx
  exact ⟨x, hdec, hx'.1, hx'.2, hpre⟩

theorem C10_off_undefined_removes_plain_witness :
    (sampleOnceThenOn.off "e" none .null).getSubs "e" =
      (sampleOnceThenOn.getSubs "e").eraseIdx 1 :=
  (C10_off_undefined_removes_plain sampleOnceThenOn "e" 1 (by decide)).1

/-! ### Claim C9 -/

def sampleOnceThenTwo : EventEmitter := (sampleOnceThenOn.on "e" (.plain 2) .null).1

/-- C9: when a once-wrapper subscription is immediately followed by another
subscription, a single emit that reaches the wrapper (here: through a plain
prefix, with plain followers) invokes the wrapper's original but skips the
immediately following subscription in that same emit — the self-removal
shifts the live array left under `forEach`'s cached range — while the
skipped subscription stays registered and fires on the next emit. -/
theorem C9_once_skips_next (e : EventEmitter) (n : String) (l r : List Subscription)
    (w f g : Nat) (c bc : Ctx) (args args2 : List Nat)
    (hsubs : e.getSubs n =
      l ++ ⟨defaultNull c, .wrapper w n (.plain f) c⟩ :: ⟨bc, .plain g⟩ :: r)
    (hl : ∀ s ∈ l, s.handler.isPlain = true)
    (hr : ∀ s ∈ r, s.handler.isPlain = true)
    (hfresh : ∀ s ∈ l ++ r, s.handler ≠ .plain g) (hfg : f ≠ g) :
    (e.emit n args).2 = plainLog args l ++ ⟨c, f, args⟩ :: plainLog args r ∧
    (∀ v ∈ (e.emit n args).2, v.fn ≠ g) ∧
    (e.emit n args).1.getSubs n = l ++ ⟨bc, .plain g⟩ :: r ∧
    (⟨bc, g, args2⟩ : Invocation) ∈ ((e.emit n args).1.emit n args2).2 := by
  have hm : ∀ s ∈ (⟨bc, Handler.plain g⟩ : Subscription) :: r, s.handler.isPlain = true := by
    intro s hs
    rcases List.mem_cons.1 hs with rfl | hs'
    · rfl
    · exact hr s hs'
  have hmain := EventEmitter.emit_one_wrapper args hsubs hl hm
  have h1 : (e.emit n args).1 =
      e.off n (some (.wrapper w n (.plain f) c)) (defaultNull c) := by rw [hmain]
  have h2 : (e.emit n args).2 = plainLog args l ++ ⟨c, f, args⟩ :: plainLog args r := by
    rw [hmain]
    simp
  have hstate : (e.emit n args).1.getSubs n = l ++ ⟨bc, .plain g⟩ :: r := by
    rw [h1, EventEmitter.getSubs_off_self (findIdx_off_wrapper hsubs hl), hsubs,
      eraseIdx_append_middle]
  have hnog : ∀ v ∈ (e.emit n args).2, v.fn ≠ g := by
    intro v hv
    rw [h2] at hv
    rcases List.mem_append.1 hv with hv' | hv'
    · exact plainLog_no_mention args l (fun s hs => hfresh s (List.mem_append_left r hs)) v hv'
    · rcases List.mem_cons.1 hv' with rfl | hv''
      · exact hfg
      · exact plainLog_no_mention args r (fun s hs => hfresh s (List.mem_append_right l hs))
          v hv''
  refine ⟨h2, hnog, hstate, ?_⟩
  have hplain2 : ∀ s ∈ (e.emit n args).1.getSubs n, s.handler.isPlain = true := by
    rw [hstate]
    intro s hs
    rcases List.mem_append.1 hs with hs' | hs'
    · exact hl s hs'
    · exact hm s hs'
  rw [EventEmitter.emit_plain args2 hplain2, hstate]
  rw [show l ++ (⟨bc, Handler.plain g⟩ : Subscription) :: r =
    l ++ [(⟨bc, Handler.plain g⟩ : Subscription)] ++ r by simp]
  rw [plainLog_append, plainLog_append]
  exact List.mem_append_left _ (List.mem_append_right _ (by simp [plainLog]))

theorem C9_once_skips_next_witness :
    (sampleOnceThenTwo.emit "e" []).2 =
      plainLog [] [] ++ ⟨.null, 0, []⟩ :: plainLog [] [⟨.null, .plain 2⟩] ∧
    (sampleOnceThenTwo.emit "e" []).1.getSubs "e" =
      [] ++ ⟨.null, .plain 1⟩ :: [⟨.null, .plain 2⟩] ∧
    (⟨.null, 1, []⟩ : Invocation) ∈ ((sampleOnceThenTwo.emit "e" []).1.emit "e" []).2 := by
  have h := C9_once_skips_next sampleOnceThenTwo "e" [] [⟨.null, .plain 2⟩] 100 0 1 .null .null
    [] [] (by decide) (by decide) (by decide) (by decide) (by decide)
  exact ⟨h.1, h.2.2.1, h.2.2.2⟩

/-! ### Claim C1 (corrected) -/

def sampleAfterOnce : EventEmitter := (EventEmitter.empty.once "e" (.plain 0) .null 100).1

/-- C1 as stated is false on the code: when a once-wrapper subscription
precedes the newly added handler under the same name, a single emit fires
the wrapper (whose self-removal shifts the live array) and the new handler's
slot is skipped — it is invoked zero times, not exactly once. -/
theorem C1_counterexample :
    ((sampleAfterOnce.on "e" (.plain 1) .null).1.emit "e" [7]).2 = [⟨.null, 0, [7]⟩] ∧
    ((sampleAfterOnce.on "e" (.plain 1) .null).1.emit "e" [7]).2.filter
      (fun v => v.fn == 1) = [] := by decide

/-- C1 amended: on an emitter whose subscriptions for `name` are all plain
(no once-wrappers) and do not already contain the handler, `on` followed by
a single `emit` invokes the handler exactly once, with the emit-time
arguments forwarded verbatim and the stored (defaulted) context as receiver,
and dispatch leaves the emitter state unchanged. -/
theorem C1_amended_on_then_emit (e : EventEmitter) (n : String) (f : Nat) (c : Ctx)
    (args : List Nat)
    (hplain : ∀ s ∈ e.getSubs n, s.handler.isPlain = true)
    (hfresh : ∀ s ∈ e.getSubs n, s.handler ≠ .plain f) :
    ((e.on n (.plain f) c).1.emit n args).2.filter (fun v => v.fn == f) =
      [⟨defaultNull c, f, args⟩] ∧
    ((e.on n (.plain f) c).1.emit n args).1 = (e.on n (.plain f) c).1 := by
  have hsubs1 : (e.on n (.plain f) c).1.getSubs n =
      e.getSubs n ++ [⟨defaultNull c, .plain f⟩] := by
    rw [EventEmitter.on_state]
    exact EventEmitter.getSubs_setSubs_self e n _
  have hplain1 : ∀ s ∈ (e.on n (.plain f) c).1.getSubs n, s.handler.isPlain = true := by
    rw [hsubs1]
    intro s hs
    rcases List.mem_append.1 hs with hs' | hs'
    · exact hplain s hs'
    · rcases List.mem_cons.1 hs' with rfl | h'
      · rfl
      · simp at h'
  constructor
  · have hlog : ((e.on n (.plain f) c).1.emit n args).2 =
        plainLog args ((e.on n (.plain f) c).1.getSubs n) := by
      rw [EventEmitter.emit_plain args hplain1]
    rw [hlog, hsubs1, plainLog_append, List.filter_append, plainLog_filter_fresh args hfresh]
    simp [plainLog]
  · rw [EventEmitter.emit_plain args hplain1]

theorem C1_amended_on_then_emit_witness :
    ((sampleSingle.on "e" (.plain 3) (.obj 2)).1.emit "e" [9]).2.filter
      (fun v => v.fn == 3) = [⟨defaultNull (.obj 2), 3, [9]⟩] ∧
    ((sampleSingle.on "e" (.plain 3) (.obj 2)).1.emit "e" [9]).1 =
      (sampleSingle.on "e" (.plain 3) (.obj 2)).1 :=
  C1_amended_on_then_emit sampleSingle "e" 3 (.obj 2) [9] (by decide) (by decide)

/-! ### Claim C2 (corrected) -/

def sampleTwoOnces : EventEmitter :=
  ((EventEmitter.empty.once "e" (.plain 0) .null 100).1.once "e" (.plain 1) .null 101).1

/-- C2 as stated is false on the code: a once subscription registered right
after another once subscription does not fire on the first emit (its slot is
skipped by the preceding wrapper's self-removal) and instead fires on the
second emit. -/
theorem C2_counterexample :
    (sampleTwoOnces.emit "e" []).2.filter (fun v => v.fn == 1) = [] ∧
    ((sampleTwoOnces.emit "e" []).1.emit "e" []).2.filter (fun v => v.fn == 1) =
      [⟨.null, 1, []⟩] := by decide

/-- C2 amended: on a well-formed emitter whose subscriptions for `name` are
all plain and do not contain the handler, a `once` registration fires on the
first emit exactly once — the wrapper removes itself and invokes the
original bound to the raw captured context — the first emit restores the
pre-`once` state exactly, and no sequence of further emits ever invokes the
handler again. -/
theorem C2_amended_once_fires_exactly_once (e : EventEmitter) (n : String) (f w : Nat)
    (c : Ctx) (args : List Nat) (argsList : List (List Nat)) (hwf : e.wf = true)
    (hplain : ∀ s ∈ e.getSubs n, s.handler.isPlain = true)
    (hfresh : ∀ s ∈ e.getSubs n, s.handler ≠ .plain f) :
    ((e.once n (.plain f) c w).1.emit n args).2.filter (fun v => v.fn == f) =
      [⟨c, f, args⟩] ∧
    ((e.once n (.plain f) c w).1.emit n args).1 = e ∧
    ∀ lg ∈ emitLogs e n argsList, ∀ v ∈ lg, v.fn ≠ f := by
  refine ⟨?_, ?_, ?_⟩
  · have hlog : ((e.once n (.plain f) c w).1.emit n args).2 =
        plainLog args (e.getSubs n) ++ [⟨c, f, args⟩] := by
      rw [EventEmitter.once_emit_restores hwf hplain args]
    rw [hlog, List.filter_append, plainLog_filter_fresh args hfresh]
    simp
  · rw [EventEmitter.once_emit_restores hwf hplain args]
  · intro lg hlg v hv
    rw [emitLogs_plain hplain argsList] at hlg
    obtain ⟨a, _, rfl⟩ := List.mem_map.1 hlg
    exact plainLog_no_mention a (e.getSubs n) hfresh v hv

theorem C2_amended_once_fires_exactly_once_witness :
    ((sampleSingle.once "e" (.plain 3) (.obj 2) 100).1.emit "e" [4]).2.filter
      (fun v => v.fn == 3) = [⟨.obj 2, 3, [4]⟩] ∧
    ((sampleSingle.once "e" (.plain 3) (.obj 2) 100).1.emit "e" [4]).1 = sampleSingle := by
  have h := C2_amended_once_fires_exactly_once sampleSingle "e" 3 100 (.obj 2) [4] [[1]]
    (by decide) (by decide) (by decide)
  exact ⟨h.1, h.2.1⟩

/-! ### Claim C4 (corrected) -/

/-- C4 as stated is false on the code: with a once-wrapper registered before
handler A (plain 1) which is registered before handler B (plain 2), a single
emit invokes B but never invokes A — so "A is invoked strictly before B"
fails even though A was registered first. -/
theorem C4_counterexample :
    (sampleOnceThenTwo.emit "e" []).2 = [⟨.null, 0, []⟩, ⟨.null, 2, []⟩] ∧
    (sampleOnceThenTwo.emit "e" []).2.filter (fun v => v.fn == 1) = [] := by decide

/-- C4 amended: storage always appends — `on` and `once` place the new
subscription (the wrapper, for `once`) at the end of the existing sequence,
in call order — and when the subscriptions for a name are all plain, a
single emit invokes exactly the stored sequence in storage order, so a
handler registered earlier is invoked strictly before one registered
later. -/
theorem C4_amended_dispatch_in_registration_order (e : EventEmitter) (n : String)
    (h ho : Handler) (c : Ctx) (w : Nat) (args : List Nat)
    (hplain : ∀ s ∈ e.getSubs n, s.handler.isPlain = true) :
    (e.emit n args).2 = plainLog args (e.getSubs n) ∧
    (e.on n h c).1.getSubs n = e.getSubs n ++ [⟨defaultNull c, h⟩] ∧
    (e.once n ho c w).1.getSubs n = e.getSubs n ++ [⟨defaultNull c, .wrapper w n ho c⟩] := by
  refine ⟨?_, ?_, ?_⟩
  · rw [EventEmitter.emit_plain args hplain]
  · rw [EventEmitter.on_state]
    exact EventEmitter.getSubs_setSubs_self e n _
  · rw [EventEmitter.once_state]
    exact EventEmitter.getSubs_setSubs_self e n _

def sampleOrdered : EventEmitter := (sampleSingle.on "e" (.plain 6) .null).1

theorem C4_amended_dispatch_in_registration_order_witness :
    (sampleOrdered.emit "e" [5]).2 = plainLog [5] (sampleOrdered.getSubs "e") ∧
    (sampleOrdered.on "e" (.plain 9) .null).1.getSubs "e" =
      sampleOrdered.getSubs "e" ++ [⟨defaultNull .null, .plain 9⟩] ∧
    (sampleOrdered.once "e" (.plain 8) .null 100).1.getSubs "e" =
      sampleOrdered.getSubs "e" ++
        [⟨defaultNull .null, .wrapper 100 "e" (.plain 8) .null⟩] :=
  C4_amended_dispatch_in_registration_order sampleOrdered "e" (.plain 9) (.plain 8) .null 100
    [5] (by decide)

/-! ### Claim C5 (corrected) -/

def sampleDupThenOnce : EventEmitter :=
  ((EventEmitter.empty.on "e" (.plain 7) (.obj 1)).1.once "e" (.plain 7) (.obj 1) 100).1

/-- C5 as stated is false on the code: if an earlier subscription for the
same name already matches the handler/context pair, `off` with the original
handler removes that earlier subscription — the first match — and leaves the
once-wrapper registered, so a subsequent emit still invokes the handler. -/
theorem C5_counterexample :
    (sampleDupThenOnce.off "e" (some (.plain 7)) (.obj 1)).getSubs "e" =
      [⟨.obj 1, .wrapper 100 "e" (.plain 7) (.obj 1)⟩] ∧
    ((sampleDupThenOnce.off "e" (some (.plain 7)) (.obj 1)).emit "e" []).2 =
      [⟨.obj 1, 7, []⟩] := by decide

/-- C5 amended: on a well-formed emitter in which no existing subscription
for `name` matches the handler/context pair and no existing subscription can
invoke the handler, `off(name, handler, context)` called with the caller's
original handler after `once` (before it fired) locates the once-wrapped
subscription through its `ORIGINAL_SYMBOL` tag, removes it, restores the
previous state exactly, and a subsequent emit produces zero invocations of
the handler. -/
theorem C5_amended_off_removes_once (e : EventEmitter) (n : String) (f w : Nat) (c : Ctx)
    (args : List Nat) (hwf : e.wf = true)
    (hnomatch : (e.getSubs n).findIdx?
      (EventEmitter.matchesSubscription (some (.plain f)) (defaultNull c)) = none)
    (hnomention : ∀ s ∈ e.getSubs n, s.handler.mentions f = false) :
    (e.once n (.plain f) c w).1.off n (some (.plain f)) c = e ∧
    ∀ v ∈ (((e.once n (.plain f) c w).1.off n (some (.plain f)) c).emit n args).2,
      v.fn ≠ f := by
  have hpre : ∀ y ∈ e.getSubs n,
      EventEmitter.matchesSubscription (some (.plain f)) (defaultNull c) y = false :=
    List.findIdx?_eq_none_iff.1 hnomatch
  have hmatch : EventEmitter.matchesSubscription (some (.plain f)) (defaultNull c)
      ⟨defaultNull c, .wrapper w n (.plain f) c⟩ = true := by
    simp [EventEmitter.matchesSubscription, looseEqHandler, Handler.original,
      Ctx.looseEq_refl]
  have hsubs1 : (e.once n (.plain f) c w).1.getSubs n =
      e.getSubs n ++ ⟨defaultNull c, .wrapper w n (.plain f) c⟩ :: [] := by
    rw [EventEmitter.once_state]
    exact EventEmitter.getSubs_setSubs_self e n _
  have hfound : ((e.once n (.plain f) c w).1.getSubs n).findIdx?
      (EventEmitter.matchesSubscription (some (.plain f)) (defaultNull c)) =
      some (e.getSubs n).length := by
    rw [hsubs1]
    exact findIdx?_append_first _ _ _ _ hpre hmatch
  have hoff : (e.once n (.plain f) c w).1.off n (some (.plain f)) c = e := by
    rw [EventEmitter.off_found hfound, hsubs1, eraseIdx_append_middle,
      EventEmitter.once_state]
    simp only [List.append_nil]
    exact EventEmitter.setSubs_then_restore hwf
  refine ⟨hoff, ?_⟩
  rw [hoff]
  exact EventEmitter.emit_no_mention args hnomention

theorem C5_amended_off_removes_once_witness :
    (EventEmitter.empty.once "e" (.plain 7) (.obj 1) 100).1.off "e" (some (.plain 7))
      (.obj 1) = EventEmitter.empty :=
  (C5_amended_off_removes_once EventEmitter.empty "e" 7 100 (.obj 1) [] (by decide)
    (by decide) (by decide)).1

/-! ### Claim C7 (corrected) -/

/-- C7 as stated is false on the code: an unsubscribe token is just a bound
`off` call, so when a duplicate registration with the same name, handler and
context exists, invoking the same token a second time removes the other,
still-matching subscription rather than being a no-op. -/
theorem C7_counterexample :
    (sampleDup.runToken sampleTok).getSubs "e" = [⟨.null, .plain 5⟩] ∧
    ((sampleDup.runToken sampleTok).runToken sampleTok).getSubs "e" = [] := by decide

/-- C7 amended: invoking a token is exactly `off` with the captured triple,
and the operation is a total function (it cannot throw).  A second
invocation is a no-op precisely in the no-match case: when, after the first
invocation, no subscription for the captured name matches the captured
handler/context pair, the second invocation returns the state unchanged. -/
theorem C7_amended_token_second_invocation (e : EventEmitter) (t : Token)
    (hwf : e.wf = true)
    (hno : ((e.runToken t).getSubs t.name).findIdx?
      (EventEmitter.matchesSubscription (some t.handler) (defaultNull t.context)) = none) :
    (e.runToken t).runToken t = e.runToken t := by
  show (e.runToken t).off t.name (some t.handler) t.context = e.runToken t
  exact EventEmitter.off_noMatch (EventEmitter.wf_off hwf) hno

theorem C7_amended_token_second_invocation_witness :
    (sampleSingle.runToken sampleTok).runToken sampleTok = sampleSingle.runToken sampleTok :=
  C7_amended_token_second_invocation sampleSingle sampleTok (by decide) (by decide)

def sampleTwoOncesThenOn : EventEmitter := (sampleTwoOnces.on "e" (.plain 2) .null).1

/-- C9 as universally stated is false on the code: with subscriptions
`[once f0, once f1, plain 2]`, the once `f1` is immediately followed by the
plain subscription, yet a single emit invokes neither `f1` (its own slot was
skipped by the first wrapper's self-removal) while the immediately following
plain handler does fire in that same emit. -/
theorem C9_counterexample :
    (sampleTwoOncesThenOn.emit "e" []).2 = [⟨.null, 0, []⟩, ⟨.null, 2, []⟩] := by decide
